import Mathlib

/-!
Verification of the bounded-memory streaming tabular filter pipeline
extracted from `tabular_pipelines/main.ipynb`.

The notebook contains three variants of a `process` routine:
* a single-pass variant (read the whole file, apply four chained
  row filters, append the survivors to `processed_chunks.csv`),
* a chunked sequential variant (`pd.read_csv(..., chunksize=B)`,
  filter each chunk, append each filtered chunk), and
* a concurrent variant (a `Pool(processes=3)` of workers, each
  filtering its chunk and appending it under a global `Lock`).

This file embeds those routines as pure Lean functions and small-step
machines and proves the specification's claims about them.
-/

/-! ## Filter chains

The notebook filters a frame by chained boolean masking:
`before_date = chunk[chunk["col_1"] <= "1990-12-24"]`, then
`col2_gt_0 = before_date[before_date["col_2"] > 0]`, and so on.
Each step keeps exactly the rows satisfying one predicate, preserving
order, so the chain is a left fold of `List.filter` over the ordered
predicate list. -/

/-- Apply an ordered chain of row predicates to a batch, one full
filtering pass per predicate, as the chained masks in the notebook do. -/
def applyChain {α : Type} (preds : List (α → Bool)) (batch : List α) : List α :=
  preds.foldl (fun acc p => acc.filter p) batch

/-- Per-row short-circuit evaluation: stop at the first failing
predicate. -/
def passesSC {α : Type} : List (α → Bool) → α → Bool
  | [], _ => true
  | p :: ps, r => if p r then passesSC ps r else false

/-- Per-row full evaluation: evaluate every predicate on the row, then
conjoin all results. -/
def passesFull {α : Type} (preds : List (α → Bool)) (r : α) : Bool :=
  (preds.map (fun p => p r)).foldl (fun a b => a && b) true

theorem passesSC_cons {α : Type} (p : α → Bool) (ps : List (α → Bool)) (r : α) :
    passesSC (p :: ps) r = (p r && passesSC ps r) := by
  cases h : p r <;> simp [passesSC, h]

theorem foldl_and_eq (l : List Bool) (a : Bool) :
    l.foldl (fun x y => x && y) a = (a && l.foldl (fun x y => x && y) true) := by
  induction l generalizing a with
  | nil => simp
  | cons b bs ih =>
    simp only [List.foldl_cons]
    rw [ih (a && b), ih (true && b)]
    simp [Bool.and_assoc]

theorem passesFull_eq_passesSC {α : Type} (preds : List (α → Bool)) (r : α) :
    passesFull preds r = passesSC preds r := by
  induction preds with
  | nil => simp [passesFull, passesSC]
  | cons p ps ih =>
    rw [passesSC_cons, ← ih]
    simp only [passesFull, List.map_cons, List.foldl_cons]
    rw [foldl_and_eq]
    simp

theorem applyChain_eq_filter_passesSC {α : Type} (preds : List (α → Bool))
    (batch : List α) : applyChain preds batch = batch.filter (passesSC preds) := by
  induction preds generalizing batch with
  | nil =>
    simp [applyChain, passesSC]
  | cons p ps ih =>
    show applyChain ps (batch.filter p) = _
    rw [ih (batch.filter p), List.filter_filter]
    apply List.filter_congr
    intro r _
    rw [passesSC_cons, Bool.and_comm]

theorem applyChain_sublist {α : Type} (preds : List (α → Bool)) (batch : List α) :
    (applyChain preds batch).Sublist batch := by
  rw [applyChain_eq_filter_passesSC]
  exact List.filter_sublist batch

theorem applyChain_append {α : Type} (preds : List (α → Bool)) (b₁ b₂ : List α) :
    applyChain preds (b₁ ++ b₂) = applyChain preds b₁ ++ applyChain preds b₂ := by
  simp [applyChain_eq_filter_passesSC]

/-! ## Chunked reading

The reader `pd.read_csv(..., chunksize=B)` yields the data rows in
consecutive chunks of exactly `B` rows, the last chunk holding the
remainder; it yields no empty trailing chunk. -/

/-- Split a row list into consecutive chunks of size `B` (the last chunk
may be shorter). `B = 0` yields no chunks. -/
def chunksOf {α : Type} (B : Nat) (l : List α) : List (List α) :=
  if hB : B = 0 then []
  else
    match l with
    | [] => []
    | x :: xs => ((x :: xs).take B) :: chunksOf B ((x :: xs).drop B)
termination_by l.length
decreasing_by
  have h2 : 0 < B := Nat.pos_of_ne_zero hB
  simp only [List.length_drop, List.length_cons]
  omega

theorem chunksOf_nil {α : Type} (B : Nat) : chunksOf B ([] : List α) = [] := by
  rw [chunksOf.eq_def]
  by_cases hB : B = 0 <;> simp [hB]

theorem chunksOf_cons {α : Type} (B : Nat) (l : List α) (hl : l ≠ []) (hB : B ≠ 0) :
    chunksOf B l = l.take B :: chunksOf B (l.drop B) := by
  rw [chunksOf.eq_def]
  match l, hl with
  | x :: xs, _ => simp [hB]

theorem chunksOf_flatten {α : Type} (B : Nat) (l : List α) (hB : B ≠ 0) :
    (chunksOf B l).flatten = l := by
  by_cases hl : l = []
  · subst hl; simp [chunksOf_nil]
  · rw [chunksOf_cons B l hl hB]
    have ih := chunksOf_flatten B (l.drop B) hB
    simp [ih]
termination_by l.length
decreasing_by
  have h1 : l.length ≠ 0 := by simpa using hl
  have h2 : 0 < B := Nat.pos_of_ne_zero hB
  simp only [List.length_drop]
  omega

theorem chunksOf_ne_nil {α : Type} (B : Nat) (l : List α) (hl : l ≠ []) (hB : B ≠ 0) :
    chunksOf B l ≠ [] := by
  rw [chunksOf_cons B l hl hB]
  simp

theorem chunksOf_mem_length {α : Type} (B : Nat) (l : List α) (hB : B ≠ 0) :
    ∀ c ∈ chunksOf B l, 1 ≤ c.length ∧ c.length ≤ B := by
  by_cases hl : l = []
  · subst hl; simp [chunksOf_nil]
  · rw [chunksOf_cons B l hl hB]
    intro c hc
    rcases List.mem_cons.mp hc with h | h
    · subst h
      constructor
      · have h1 : 0 < l.length := List.length_pos.mpr hl
        simp only [List.length_take]
        omega
      · simp only [List.length_take]
        omega
    · exact chunksOf_mem_length B (l.drop B) hB c h
termination_by l.length
decreasing_by
  have h1 : l.length ≠ 0 := by simpa using hl
  have h2 : 0 < B := Nat.pos_of_ne_zero hB
  simp only [List.length_drop]
  omega

theorem chunksOf_dropLast_length {α : Type} (B : Nat) (l : List α) (hB : B ≠ 0) :
    ∀ c ∈ (chunksOf B l).dropLast, c.length = B := by
  by_cases hl : l = []
  · subst hl; simp [chunksOf_nil]
  · rw [chunksOf_cons B l hl hB]
    by_cases hd : l.drop B = []
    · rw [hd, chunksOf_nil]
      simp
    · rw [List.dropLast_cons_of_ne_nil (chunksOf_ne_nil B (l.drop B) hd hB)]
      intro c hc
      rcases List.mem_cons.mp hc with h | h
      · subst h
        have h1 : l.length ≠ 0 := by simpa using hl
        have h3 : B < l.length := by simpa using hd
        simp only [List.length_take]
        omega
      · exact chunksOf_dropLast_length B (l.drop B) hB c h
termination_by l.length
decreasing_by
  have h1 : l.length ≠ 0 := by simpa using hl
  have h2 : 0 < B := Nat.pos_of_ne_zero hB
  simp only [List.length_drop]
  omega

theorem chunksOf_length {α : Type} (B : Nat) (l : List α) (hl : l ≠ []) (hB : B ≠ 0) :
    (chunksOf B l).length = (l.length + B - 1) / B := by
  have h1 : l.length ≠ 0 := by simpa using hl
  have h2 : 0 < B := Nat.pos_of_ne_zero hB
  rw [chunksOf_cons B l hl hB]
  by_cases hd : l.drop B = []
  · have h3 : l.length ≤ B := by simpa using hd
    rw [hd, chunksOf_nil]
    have : (l.length + B - 1) / B = 1 := by
      apply Nat.div_eq_of_lt_le <;> omega
    simp [this]
  · have h3 : B < l.length := by simpa using hd
    have ih := chunksOf_length B (l.drop B) hd hB
    simp only [List.length_cons, ih, List.length_drop]
    have e1 : l.length - B + B - 1 = l.length - 1 := by omega
    have e2 : l.length + B - 1 = (l.length - 1) + B := by omega
    rw [e1, e2, Nat.add_div_right _ h2]
termination_by l.length
decreasing_by
  simp only [List.length_drop]
  omega

/-! ## Data model from the notebook

The demo dataset has columns `col_0 : String`, `col_1 : Date`,
`col_2 .. col_51 : Integer`, `col_52 .. col_101 : Float`
(`dtypes = dict(zip(cols[2:], [np.int32]*50 + [np.float32]*50))`,
`parse_dates=["col_1"]`). Floats are modelled as rationals. -/

inductive ColType where
  | intT
  | floatT
  | stringT
  | dateT
  | boolT
deriving DecidableEq, Repr

inductive Value where
  | vInt (i : Int)
  | vRat (q : Rat)
  | vStr (s : String)
  | vDate (d : String)
  | vBool (b : Bool)
deriving DecidableEq, Repr

/-- A typed row: column name to typed value, in header order. -/
abbrev Row := List (String × Value)

/-- A raw data row as read from the delimited file. -/
abbrev RawRow := List String

def getCol (r : Row) (c : String) : Option Value :=
  (r.find? (fun kv => kv.1 == c)).map (fun kv => kv.2)

/-- The notebook mask `chunk["col_1"] <= "1990-12-24"`. -/
def predBeforeDate (r : Row) : Bool :=
  match getCol r "col_1" with
  | some (Value.vDate d) => decide (d ≤ "1990-12-24")
  | _ => false

/-- The notebook mask `chunk["col_2"] > 0`. -/
def predCol2Pos (r : Row) : Bool :=
  match getCol r "col_2" with
  | some (Value.vInt i) => decide (0 < i)
  | _ => false

/-- The notebook mask `chunk["col_3"] > 50`. -/
def predCol3Gt50 (r : Row) : Bool :=
  match getCol r "col_3" with
  | some (Value.vInt i) => decide (50 < i)
  | _ => false

/-- The notebook mask `chunk["col_100"] < 0.5`. -/
def predCol100LtHalf (r : Row) : Bool :=
  match getCol r "col_100" with
  | some (Value.vRat q) => decide (q < (1 : Rat) / 2)
  | _ => false

/-- The notebook's declared filter chain, in source order. -/
def notebookChain : List (Row → Bool) :=
  [predBeforeDate, predCol2Pos, predCol3Gt50, predCol100LtHalf]

/-! ## Schema coercion -/

/-- Parse a digit string into a number. -/
def parseNatChars (cs : List Char) : Option Nat :=
  if cs = [] then none
  else
    cs.foldl
      (fun acc c =>
        match acc with
        | none => none
        | some n => if c.isDigit then some (n * 10 + (c.toNat - 48)) else none)
      (some 0)

/-- Parse an optionally signed digit string into an integer. -/
def parseIntChars : List Char → Option Int
  | '-' :: rest => (parseNatChars rest).map (fun n => -(n : Int))
  | l => (parseNatChars l).map (fun n => (n : Int))

/-- Split a character list on a separator. -/
def splitOnChar (sep : Char) (cs : List Char) : List (List Char) :=
  cs.foldr
    (fun c acc =>
      match acc with
      | [] => if c = sep then [[], []] else [[c]]
      | g :: gs => if c = sep then [] :: g :: gs else (c :: g) :: gs)
    [[]]

/-- Parse a decimal literal (optional sign, optional fractional part)
into a rational. -/
def parseDecimal? (s : String) : Option Rat :=
  match splitOnChar (Char.ofNat 46) s.data with
  | [a] => (parseIntChars a).map (fun i => (i : Rat))
  | [a, b] =>
    match parseIntChars a, parseNatChars b with
    | some i, some frac =>
      let mag : Rat := (i.natAbs : Rat) + (frac : Rat) / ((10 : Rat) ^ b.length)
      some (if s.data.headD (Char.ofNat 32) = Char.ofNat 45 then -mag else mag)
    | _, _ => none
  | _ => none

/-- Recognize a `Y-M-D` date literal with numeric components and
month/day in range, as the demo data uses. -/
def isDateLit (s : String) : Bool :=
  match splitOnChar (Char.ofNat 45) s.data with
  | [y, m, d] =>
    match parseNatChars y, parseNatChars m, parseNatChars d with
    | some _, some mm, some dd =>
      decide (1 ≤ mm) && decide (mm ≤ 12) && decide (1 ≤ dd) && decide (dd ≤ 31)
    | _, _, _ => false
  | _ => false

/-- Modelled from the spec: the notebook delegates coercion to
`pandas.read_csv(dtype=..., parse_dates=...)`, whose conversion rules are
not code of this repository. Per §4.1, each declared column's raw string
is converted to the declared type, failing when conversion is
impossible; undeclared columns keep the raw string type. -/
def coerceField : ColType → String → Option Value
  | ColType.stringT, s => some (Value.vStr s)
  | ColType.intT, s => (parseIntChars s.data).map Value.vInt
  | ColType.floatT, s => (parseDecimal? s).map Value.vRat
  | ColType.dateT, s => if isDateLit s then some (Value.vDate s) else none
  | ColType.boolT, s =>
    if s == "True" || s == "true" then some (Value.vBool true)
    else if s == "False" || s == "false" then some (Value.vBool false)
    else none

def lookupType (schema : List (String × ColType)) (c : String) : Option ColType :=
  (schema.find? (fun kv => kv.1 == c)).map (fun kv => kv.2)

/-- Modelled from the spec: `coerce(rawRow) -> Row | ParseError` (§4.1);
a row with the wrong field count is malformed (§4.2). `none` is the
row-level parse error. -/
def coerceRow (header : List String) (schema : List (String × ColType))
    (raw : RawRow) : Option Row :=
  if raw.length = header.length then
    (header.zip raw).mapM (fun cv =>
      match lookupType schema cv.1 with
      | some t => (coerceField t cv.2).map (fun tv => (cv.1, tv))
      | none => some (cv.1, Value.vStr cv.2))
  else none

/-! ## Serialization and the three `process` variants

Output files are modelled as character lists; `to_csv(..., mode="a",
header=False)` is an append of the serialized batch. -/

def valueToString : Value → String
  | Value.vInt i => toString i
  | Value.vRat q => toString q
  | Value.vStr s => s
  | Value.vDate d => d
  | Value.vBool b => if b then "True" else "False"

/-- One output line per row, fields joined by the delimiter. -/
def serializeRow (r : Row) : List Char :=
  (String.intercalate "," (r.map (fun kv => valueToString kv.2)) ++ "\n").data

/-- Serialize a batch: the concatenation of its rows' lines, in batch
order. -/
def serializeBatch {α : Type} (f : α → List Char) (rows : List α) : List Char :=
  (rows.map f).flatten

/-- Single-pass variant of `process`: read the whole file, filter once,
append the survivors once to the destination. -/
def processSinglePass {α : Type} (f : α → List Char) (preds : List (α → Bool))
    (dest : List Char) (rows : List α) : List Char :=
  dest ++ serializeBatch f (applyChain preds rows)

/-- Chunked sequential variant of `process`: filter and append chunk by
chunk, in reading order. -/
def processChunked {α : Type} (f : α → List Char) (preds : List (α → Bool))
    (B : Nat) (dest : List Char) (rows : List α) : List Char :=
  (chunksOf B rows).foldl (fun acc c => acc ++ serializeBatch f (applyChain preds c)) dest

/-- The rows the concurrent variant commits when batch writes complete
in the order `order` (process scheduling decides `order`). -/
def concWrittenRows {α : Type} (preds : List (α → Bool)) (B : Nat)
    (rows : List α) (order : List Nat) : List α :=
  (order.map (fun i => applyChain preds (((chunksOf B rows)[i]?).getD []))).flatten

/-- Concurrent variant of `process`: each worker filters its chunk and
appends it under the lock; batch appends land in completion order. -/
def processConcurrent {α : Type} (f : α → List Char) (preds : List (α → Bool))
    (B : Nat) (dest : List Char) (rows : List α) (order : List Nat) : List Char :=
  order.foldl
    (fun acc i => acc ++ serializeBatch f (applyChain preds (((chunksOf B rows)[i]?).getD [])))
    dest

theorem serializeBatch_append {α : Type} (f : α → List Char) (a b : List α) :
    serializeBatch f (a ++ b) = serializeBatch f a ++ serializeBatch f b := by
  simp [serializeBatch]

theorem applyChain_flatten {α : Type} (preds : List (α → Bool)) (ll : List (List α)) :
    applyChain preds ll.flatten = (ll.map (applyChain preds)).flatten := by
  induction ll with
  | nil => simp [applyChain_eq_filter_passesSC]
  | cons c cs ih => simp [applyChain_append, ih]

theorem foldl_append_serialize {α : Type} (f : α → List Char) (preds : List (α → Bool))
    (cs : List (List α)) (acc : List Char) :
    cs.foldl (fun a c => a ++ serializeBatch f (applyChain preds c)) acc
      = acc ++ (cs.map (fun c => serializeBatch f (applyChain preds c))).flatten := by
  induction cs generalizing acc with
  | nil => simp
  | cons c cs ih => simp [ih]

theorem applyChain_nil {α : Type} (preds : List (α → Bool)) :
    applyChain preds ([] : List α) = [] := by
  simp [applyChain_eq_filter_passesSC]

theorem serializeBatch_flatten {α : Type} (f : α → List Char) (ll : List (List α)) :
    serializeBatch f ll.flatten = (ll.map (serializeBatch f)).flatten := by
  induction ll with
  | nil => simp [serializeBatch]
  | cons c cs ih => simp [serializeBatch_append, ih]

theorem processChunked_eq_singlePass {α : Type} (f : α → List Char)
    (preds : List (α → Bool)) (B : Nat) (dest : List Char) (rows : List α)
    (hB : B ≠ 0) :
    processChunked f preds B dest rows = processSinglePass f preds dest rows := by
  rw [processChunked, foldl_append_serialize, processSinglePass]
  have h1 : rows = (chunksOf B rows).flatten := (chunksOf_flatten B rows hB).symm
  congr 1
  conv_rhs => rw [h1]
  rw [applyChain_flatten, serializeBatch_flatten, List.map_map]
  rfl

/-! ## PipelineResult and error policies -/

/-- Modelled from the spec: the PipelineResult aggregate counters (§3);
the notebook keeps no counters, only printed timings. -/
structure PipelineResult where
  rowsRead : Nat
  parseErrors : Nat
  rowsWritten : Nat
  batchesWritten : Nat
deriving DecidableEq, Repr

def emptyResult : PipelineResult :=
  { rowsRead := 0, parseErrors := 0, rowsWritten := 0, batchesWritten := 0 }

/-- Modelled from the spec: per-batch coercion under the default
skip-with-count policy (§4.2): a malformed row is skipped and counted,
the rest of the batch survives in order. Returns (parse errors, coerced
rows). -/
def coerceBatch (header : List String) (schema : List (String × ColType)) :
    List RawRow → Nat × List Row
  | [] => (0, [])
  | raw :: rest =>
    let tl := coerceBatch header schema rest
    match coerceRow header schema raw with
    | some r => (tl.1, r :: tl.2)
    | none => (tl.1 + 1, tl.2)

theorem coerceBatch_spec (header : List String) (schema : List (String × ColType))
    (raws : List RawRow) :
    coerceBatch header schema raws
      = ((raws.filter (fun raw => (coerceRow header schema raw).isNone)).length,
         raws.filterMap (coerceRow header schema)) := by
  induction raws with
  | nil => simp [coerceBatch]
  | cons raw rest ih =>
    simp only [coerceBatch, ih]
    cases h : coerceRow header schema raw <;>
      simp [List.filter_cons, List.filterMap_cons, h]

/-- Modelled from the spec: the sequential chunked run with the
skip-with-count parse-error policy and counter accumulation (§4.2, §7);
reading, coercion and filtering chunk by chunk follow the notebook's
chunked `process`, which appends each filtered chunk to the output. -/
def runSeqCounted (header : List String) (schema : List (String × ColType))
    (preds : List (Row → Bool)) (B : Nat) (raws : List RawRow) :
    PipelineResult × List Row :=
  (chunksOf B raws).foldl
    (fun st chunk =>
      let cb := coerceBatch header schema chunk
      let survivors := applyChain preds cb.2
      ({ rowsRead := st.1.rowsRead + chunk.length,
         parseErrors := st.1.parseErrors + cb.1,
         rowsWritten := st.1.rowsWritten + survivors.length,
         batchesWritten := st.1.batchesWritten + 1 },
       st.2 ++ survivors))
    (emptyResult, [])

theorem runSeqCounted_foldl (header : List String) (schema : List (String × ColType))
    (preds : List (Row → Bool)) (cs : List (List RawRow))
    (st : PipelineResult × List Row) :
    cs.foldl
      (fun st chunk =>
        let cb := coerceBatch header schema chunk
        let survivors := applyChain preds cb.2
        ({ rowsRead := st.1.rowsRead + chunk.length,
           parseErrors := st.1.parseErrors + cb.1,
           rowsWritten := st.1.rowsWritten + survivors.length,
           batchesWritten := st.1.batchesWritten + 1 },
         st.2 ++ survivors))
      st
      = ({ rowsRead := st.1.rowsRead + cs.flatten.length,
           parseErrors := st.1.parseErrors
             + (cs.flatten.filter (fun raw => (coerceRow header schema raw).isNone)).length,
           rowsWritten := st.1.rowsWritten
             + (applyChain preds (cs.flatten.filterMap (coerceRow header schema))).length,
           batchesWritten := st.1.batchesWritten + cs.length },
         st.2 ++ applyChain preds (cs.flatten.filterMap (coerceRow header schema))) := by
  induction cs generalizing st with
  | nil => simp [applyChain_nil]
  | cons c cs ih =>
    rw [List.foldl_cons, ih]
    simp only [coerceBatch_spec, List.flatten_cons, List.filter_append,
      List.filterMap_append, applyChain_append, List.length_append, List.append_assoc,
      List.length_cons]
    refine congrArg₂ Prod.mk ?_ rfl
    congr 1 <;> omega

theorem runSeqCounted_spec (header : List String) (schema : List (String × ColType))
    (preds : List (Row → Bool)) (B : Nat) (raws : List RawRow) (hB : B ≠ 0) :
    runSeqCounted header schema preds B raws
      = ({ rowsRead := raws.length,
           parseErrors :=
             (raws.filter (fun raw => (coerceRow header schema raw).isNone)).length,
           rowsWritten :=
             (applyChain preds (raws.filterMap (coerceRow header schema))).length,
           batchesWritten := (chunksOf B raws).length },
         applyChain preds (raws.filterMap (coerceRow header schema))) := by
  rw [runSeqCounted, runSeqCounted_foldl]
  simp [emptyResult, chunksOf_flatten B raws hB]

/-- Modelled from the spec: a run loop against a fallible sink (§4.4,
§7): `wf k` says whether the `k`-th append succeeds; a failed append is
fatal, surfaced with the accumulated partial PipelineResult, and not
retried — the notebook's `to_csv` raises and the exception propagates
out of the chunk loop. Returns (write attempts, destination contents,
outcome). -/
def runSeqFallible {α : Type} (preds : List (α → Bool)) (wf : Nat → Bool) :
    List (List α) → Nat → PipelineResult → List α →
      List Nat × List α × Except (Nat × PipelineResult) PipelineResult
  | [], _, res, sink => ([], sink, Except.ok res)
  | c :: cs, k, res, sink =>
    let survivors := applyChain preds c
    let resRead := { res with rowsRead := res.rowsRead + c.length }
    if wf k then
      let tl := runSeqFallible preds wf cs (k + 1)
        { resRead with
          rowsWritten := resRead.rowsWritten + survivors.length,
          batchesWritten := resRead.batchesWritten + 1 }
        (sink ++ survivors)
      (k :: tl.1, tl.2)
    else ([k], sink, Except.error (k, resRead))

theorem runSeqFallible_fail {α : Type} (preds : List (α → Bool)) (wf : Nat → Bool)
    (cs : List (List α)) (k₀ m : Nat) (res : PipelineResult) (sink : List α)
    (hm : m < cs.length) (hfail : wf (k₀ + m) = false)
    (hok : ∀ j, j < m → wf (k₀ + j) = true) :
    runSeqFallible preds wf cs k₀ res sink
      = (List.range' k₀ (m + 1),
         sink ++ ((cs.take m).map (applyChain preds)).flatten,
         Except.error (k₀ + m,
           { rowsRead := res.rowsRead + (cs.take (m + 1)).flatten.length,
             parseErrors := res.parseErrors,
             rowsWritten :=
               res.rowsWritten + ((cs.take m).map (applyChain preds)).flatten.length,
             batchesWritten := res.batchesWritten + m })) := by
  induction cs generalizing k₀ m res sink with
  | nil => simp at hm
  | cons c cs ih =>
    cases m with
    | zero =>
      have h0 : wf k₀ = false := by simpa using hfail
      simp [runSeqFallible, h0]
    | succ m =>
      have h0 : wf k₀ = true := by simpa using hok 0 (Nat.succ_pos m)
      have hm' : m < cs.length := by simpa using hm
      have hfail' : wf (k₀ + 1 + m) = false := by
        have : k₀ + 1 + m = k₀ + (m + 1) := by omega
        rw [this]; exact hfail
      have hok' : ∀ j, j < m → wf (k₀ + 1 + j) = true := by
        intro j hj
        have : k₀ + 1 + j = k₀ + (j + 1) := by omega
        rw [this]; exact hok (j + 1) (by omega)
      rw [runSeqFallible]
      simp only [h0, if_true]
      rw [ih (k₀ + 1) m _ _ hm' hfail' hok']
      simp only [List.range'_succ, List.take_succ_cons, List.map_cons, List.flatten_cons,
        List.length_append, List.append_assoc, Prod.mk.injEq, Except.error.injEq,
        PipelineResult.mk.injEq]
      and_intros <;> first | rfl | omega | trivial

/-! ## The concurrent dispatch loop (backpressure)

The notebook runs `pool = Pool(processes=3)` and then
`for i, chunk in enumerate(iterator): pool.apply_async(process, (chunk, i))`:
`apply_async` submits the batch to the pool's task queue and returns
immediately, whatever the queue length. -/

/-- Coordinator/pool state: batches not yet pulled from the reader,
batches queued by `apply_async`, batches being processed, batches done. -/
structure PoolState where
  toRead : Nat
  queued : Nat
  running : Nat
  done : Nat
deriving DecidableEq, Repr

/-- Batches in flight: queued for processing or being processed. -/
def inFlight (s : PoolState) : Nat := s.queued + s.running

/-- Small-step semantics of the dispatch loop over a pool of `W` worker
processes. `dispatch` is one iteration of the `for` loop: it pulls the
next chunk and submits it without waiting (its only guard is that input
remains); `start` is a free worker picking up a queued batch (at most
`W` run at once); `finish` is a worker completing its batch. -/
inductive PoolStep (W : Nat) : PoolState → PoolState → Prop where
  | dispatch (s : PoolState) (h : 0 < s.toRead) :
      PoolStep W s { s with toRead := s.toRead - 1, queued := s.queued + 1 }
  | start (s : PoolState) (h : 0 < s.queued) (hW : s.running < W) :
      PoolStep W s { s with queued := s.queued - 1, running := s.running + 1 }
  | finish (s : PoolState) (h : 0 < s.running) :
      PoolStep W s { s with running := s.running - 1, done := s.done + 1 }

/-- The dispatch loop runs to exhaustion while no worker completes:
five batches, pool of three, four dispatches back to back. -/
theorem poolChainExample :
    Relation.ReflTransGen (PoolStep 3)
      { toRead := 5, queued := 0, running := 0, done := 0 }
      { toRead := 1, queued := 4, running := 0, done := 0 } := by
  have s1 : PoolStep 3 { toRead := 5, queued := 0, running := 0, done := 0 }
      { toRead := 4, queued := 1, running := 0, done := 0 } :=
    PoolStep.dispatch _ (by decide)
  have s2 : PoolStep 3 { toRead := 4, queued := 1, running := 0, done := 0 }
      { toRead := 3, queued := 2, running := 0, done := 0 } :=
    PoolStep.dispatch _ (by decide)
  have s3 : PoolStep 3 { toRead := 3, queued := 2, running := 0, done := 0 }
      { toRead := 2, queued := 3, running := 0, done := 0 } :=
    PoolStep.dispatch _ (by decide)
  have s4 : PoolStep 3 { toRead := 2, queued := 3, running := 0, done := 0 }
      { toRead := 1, queued := 4, running := 0, done := 0 } :=
    PoolStep.dispatch _ (by decide)
  exact Relation.ReflTransGen.head s1 (Relation.ReflTransGen.head s2
    (Relation.ReflTransGen.head s3 (Relation.ReflTransGen.single s4)))

/-! ## The serialized sink under the global lock

Cell 22's worker: filter the chunk, `l.acquire()`, append the filtered
rows with `to_csv(..., mode="a")`, `l.release()`. The append is modelled
row by row so that its atomicity is proved from the lock discipline, not
assumed. -/

/-- Program counter of one worker process. -/
inductive WorkerPC (α : Type) where
  | ready (batch : List α)
  | writing (done toWrite : List α)
  | finished (wrote : List α)
deriving DecidableEq

def isWriting {α : Type} : WorkerPC α → Bool
  | WorkerPC.writing _ _ => true
  | _ => false

def isFinished {α : Type} : WorkerPC α → Bool
  | WorkerPC.finished _ => true
  | _ => false

/-- Global state: one pc per worker, the lock holder, the sink file. -/
structure LockState (α : Type) (n : Nat) where
  workers : Fin n → WorkerPC α
  holder : Option (Fin n)
  sink : List α

/-- Initial state: every worker holds its raw batch, the lock is free,
the (fresh) destination is empty. -/
def lockInit {α : Type} {n : Nat} (batches : Fin n → List α) : LockState α n :=
  { workers := fun i => WorkerPC.ready (batches i), holder := none, sink := [] }

/-- Interleaving semantics of the workers sharing the sink: a worker may
acquire the free lock (filtering its batch first — filtering is pure and
lock-free), append one row while holding the lock, or release the lock
once its batch is exhausted. -/
inductive LockStep {α : Type} {n : Nat} (preds : List (α → Bool)) :
    LockState α n → LockState α n → Prop where
  | acquire (s : LockState α n) (i : Fin n) (b : List α)
      (hw : s.workers i = WorkerPC.ready b) (hl : s.holder = none) :
      LockStep preds s
        { workers := Function.update s.workers i
            (WorkerPC.writing [] (applyChain preds b)),
          holder := some i, sink := s.sink }
  | writeRow (s : LockState α n) (i : Fin n) (d : List α) (r : α) (rest : List α)
      (hw : s.workers i = WorkerPC.writing d (r :: rest)) :
      LockStep preds s
        { workers := Function.update s.workers i (WorkerPC.writing (d ++ [r]) rest),
          holder := s.holder, sink := s.sink ++ [r] }
  | release (s : LockState α n) (i : Fin n) (d : List α)
      (hw : s.workers i = WorkerPC.writing d []) :
      LockStep preds s
        { workers := Function.update s.workers i (WorkerPC.finished d),
          holder := none, sink := s.sink }

/-- What a worker's pc must satisfy relative to its original batch. -/
def pcConsistent {α : Type} (preds : List (α → Bool)) (orig : List α) :
    WorkerPC α → Prop
  | WorkerPC.ready b => b = orig
  | WorkerPC.writing d t => d ++ t = applyChain preds orig
  | WorkerPC.finished w => w = applyChain preds orig

/-- The partial batch the current lock holder has appended so far. -/
def currentDone {α : Type} {n : Nat} (s : LockState α n) : List α :=
  match s.holder with
  | some i =>
    match s.workers i with
    | WorkerPC.writing d _ => d
    | _ => []
  | none => []

/-- Inductive invariant of the lock discipline: only the lock holder is
mid-write, pcs stay consistent with their batches, and the sink is the
concatenation of the finished workers' filtered batches (in some
completion order) followed by the holder's partial batch. -/
structure LockInv {α : Type} {n : Nat} (preds : List (α → Bool))
    (batches : Fin n → List α) (s : LockState α n) : Prop where
  holderOfWriting : ∀ i, isWriting (s.workers i) = true → s.holder = some i
  writingOfHolder : ∀ i, s.holder = some i → isWriting (s.workers i) = true
  consistent : ∀ i, pcConsistent preds (batches i) (s.workers i)
  shape : ∃ fo : List (Fin n), fo.Nodup
      ∧ (∀ i, i ∈ fo ↔ isFinished (s.workers i) = true)
      ∧ s.sink = (fo.map (fun i => applyChain preds (batches i))).flatten ++ currentDone s

theorem lockInv_init {α : Type} {n : Nat} (preds : List (α → Bool))
    (batches : Fin n → List α) : LockInv preds batches (lockInit batches) := by
  refine ⟨?_, ?_, ?_, [], by simp, ?_, ?_⟩
  · intro i h
    simp [lockInit, isWriting] at h
  · intro i h
    simp [lockInit] at h
  · intro i
    simp [lockInit, pcConsistent]
  · intro i
    simp [lockInit, isFinished]
  · simp [lockInit, currentDone]

theorem lockInv_step {α : Type} {n : Nat} {preds : List (α → Bool)}
    {batches : Fin n → List α} {s s' : LockState α n}
    (inv : LockInv preds batches s) (step : LockStep preds s s') :
    LockInv preds batches s' := by
  cases step with
  | acquire i b hw hl =>
    obtain ⟨fo, hnd, hmem, hsink⟩ := inv.shape
    have hbi : b = batches i := by
      have hc := inv.consistent i
      rw [hw] at hc
      exact hc
    refine ⟨?_, ?_, ?_, fo, hnd, ?_, ?_⟩
    · intro j hj
      dsimp only at hj ⊢
      by_cases hji : j = i
      · subst hji; rfl
      · rw [Function.update_noteq hji] at hj
        have hh := inv.holderOfWriting j hj
        rw [hl] at hh
        exact absurd hh (by simp)
    · intro j hj
      dsimp only at hj ⊢
      have hji : j = i := by
        have h1 : some i = some j := hj
        exact (Option.some_injective _ h1).symm
      subst hji
      rw [Function.update_same]
      rfl
    · intro j
      dsimp only
      by_cases hji : j = i
      · subst hji
        rw [Function.update_same]
        show ([] : List α) ++ applyChain preds b = applyChain preds (batches j)
        rw [hbi]
        simp
      · rw [Function.update_noteq hji]
        exact inv.consistent j
    · intro j
      dsimp only
      by_cases hji : j = i
      · subst hji
        rw [Function.update_same]
        constructor
        · intro hj
          have hfin := (hmem j).mp hj
          rw [hw] at hfin
          simp [isFinished] at hfin
        · intro hfin
          simp [isFinished] at hfin
      · rw [Function.update_noteq hji]
        exact hmem j
    · dsimp only
      have hcd : (currentDone
          ({ workers := Function.update s.workers i
               (WorkerPC.writing [] (applyChain preds b)),
             holder := some i, sink := s.sink } : LockState α n)) = [] := by
        simp [currentDone, Function.update_same]
      rw [hcd]
      have hcd0 : currentDone s = [] := by
        simp [currentDone, hl]
      rw [hsink, hcd0]
  | writeRow i d r rest hw =>
    obtain ⟨fo, hnd, hmem, hsink⟩ := inv.shape
    have hold : s.holder = some i := inv.holderOfWriting i (by simp [hw, isWriting])
    refine ⟨?_, ?_, ?_, fo, hnd, ?_, ?_⟩
    · intro j hj
      dsimp only at hj ⊢
      by_cases hji : j = i
      · subst hji; exact hold
      · rw [Function.update_noteq hji] at hj
        exact inv.holderOfWriting j hj
    · intro j hj
      dsimp only at hj ⊢
      have hji : j = i := by
        have h1 : some i = some j := by rw [← hold]; exact hj
        exact (Option.some_injective _ h1).symm
      subst hji
      rw [Function.update_same]
      rfl
    · intro j
      dsimp only
      by_cases hji : j = i
      · subst hji
        rw [Function.update_same]
        show (d ++ [r]) ++ rest = applyChain preds (batches j)
        have hc := inv.consistent j
        rw [hw] at hc
        have hc' : d ++ (r :: rest) = applyChain preds (batches j) := hc
        rw [← hc']
        simp
      · rw [Function.update_noteq hji]
        exact inv.consistent j
    · intro j
      dsimp only
      by_cases hji : j = i
      · subst hji
        rw [Function.update_same]
        have hmj := hmem j
        rw [hw] at hmj
        simpa [isFinished] using hmj
      · rw [Function.update_noteq hji]
        exact hmem j
    · dsimp only
      have hcd : (currentDone
          ({ workers := Function.update s.workers i
               (WorkerPC.writing (d ++ [r]) rest),
             holder := s.holder, sink := s.sink ++ [r] } : LockState α n))
          = d ++ [r] := by
        simp [currentDone, hold, Function.update_same]
      rw [hcd]
      have hcd0 : currentDone s = d := by
        simp [currentDone, hold, hw]
      rw [hsink, hcd0]
      simp
  | release i d hw =>
    obtain ⟨fo, hnd, hmem, hsink⟩ := inv.shape
    have hold : s.holder = some i := inv.holderOfWriting i (by simp [hw, isWriting])
    have hdi : d = applyChain preds (batches i) := by
      have hc := inv.consistent i
      rw [hw] at hc
      have hc' : d ++ [] = applyChain preds (batches i) := hc
      simpa using hc'
    have hnotmem : i ∉ fo := by
      intro hmm
      have hfin := (hmem i).mp hmm
      rw [hw] at hfin
      simp [isFinished] at hfin
    refine ⟨?_, ?_, ?_, fo ++ [i], ?_, ?_, ?_⟩
    · intro j hj
      dsimp only at hj ⊢
      by_cases hji : j = i
      · subst hji
        rw [Function.update_same] at hj
        simp [isWriting] at hj
      · rw [Function.update_noteq hji] at hj
        have hh := inv.holderOfWriting j hj
        rw [hold] at hh
        have hij : i = j := Option.some_injective _ hh
        exact absurd hij.symm hji
    · intro j hj
      dsimp only at hj
      exact absurd hj (by simp)
    · intro j
      dsimp only
      by_cases hji : j = i
      · subst hji
        rw [Function.update_same]
        exact hdi
      · rw [Function.update_noteq hji]
        exact inv.consistent j
    · simp [List.nodup_append, hnd, hnotmem]
    · intro j
      dsimp only
      by_cases hji : j = i
      · subst hji
        rw [Function.update_same]
        simp [isFinished]
      · rw [Function.update_noteq hji]
        simp only [List.mem_append, List.mem_singleton]
        constructor
        · intro hj
          rcases hj with hj | hj
          · exact (hmem j).mp hj
          · exact absurd hj hji
        · intro hj
          exact Or.inl ((hmem j).mpr hj)
    · dsimp only
      have hcd : (currentDone
          ({ workers := Function.update s.workers i (WorkerPC.finished d),
             holder := none, sink := s.sink } : LockState α n)) = [] := by
        simp [currentDone]
      rw [hcd]
      have hcd0 : currentDone s = d := by
        simp [currentDone, hold, hw]
      rw [hsink, hcd0, hdi]
      simp

theorem lockInv_reachable {α : Type} {n : Nat} (preds : List (α → Bool))
    (batches : Fin n → List α) (s : LockState α n)
    (h : Relation.ReflTransGen (LockStep preds) (lockInit batches) s) :
    LockInv preds batches s := by
  induction h with
  | refl => exact lockInv_init preds batches
  | tail _ step ih => exact lockInv_step ih step

theorem lockFinal_shape {α : Type} {n : Nat} (preds : List (α → Bool))
    (batches : Fin n → List α) (s : LockState α n)
    (hreach : Relation.ReflTransGen (LockStep preds) (lockInit batches) s)
    (hdone : ∀ i, isFinished (s.workers i) = true) :
    ∃ ord : List (Fin n), ord.Perm (List.finRange n)
      ∧ s.sink = (ord.map (fun i => applyChain preds (batches i))).flatten := by
  have inv := lockInv_reachable preds batches s hreach
  obtain ⟨fo, hnd, hmem, hsink⟩ := inv.shape
  refine ⟨fo, ?_, ?_⟩
  · rw [List.perm_ext_iff_of_nodup hnd (List.nodup_finRange n)]
    intro j
    simp [hmem j, hdone j, List.mem_finRange]
  · have hcd : currentDone s = [] := by
      cases hh : s.holder with
      | none => simp [currentDone, hh]
      | some i =>
        have hwj := inv.writingOfHolder i hh
        have hfin := hdone i
        cases hpc : s.workers i with
        | ready b => rw [hpc] at hwj; simp [isWriting] at hwj
        | writing a c => rw [hpc] at hfin; simp [isFinished] at hfin
        | finished w => rw [hpc] at hwj; simp [isWriting] at hwj
    rw [hsink, hcd]
    simp

/-! ## A concrete one-worker execution (used as a witness run) -/

def exPreds : List (Nat → Bool) := [fun x => decide (x % 2 = 1)]

def exBatches : Fin 1 → List Nat := fun _ => [1, 2]

def exS1 : LockState Nat 1 :=
  { workers := Function.update (lockInit exBatches).workers 0
      (WorkerPC.writing [] (applyChain exPreds [1, 2])),
    holder := some 0, sink := [] }

def exS2 : LockState Nat 1 :=
  { workers := Function.update exS1.workers 0 (WorkerPC.writing ([] ++ [1]) []),
    holder := exS1.holder, sink := exS1.sink ++ [1] }

def exS3 : LockState Nat 1 :=
  { workers := Function.update exS2.workers 0 (WorkerPC.finished ([] ++ [1])),
    holder := none, sink := exS2.sink }

theorem exStep1 : LockStep exPreds (lockInit exBatches) exS1 :=
  LockStep.acquire _ 0 [1, 2] rfl rfl

theorem exStep2 : LockStep exPreds exS1 exS2 :=
  LockStep.writeRow _ 0 [] 1 [] rfl

theorem exStep3 : LockStep exPreds exS2 exS3 :=
  LockStep.release _ 0 ([] ++ [1]) rfl

theorem exReach :
    Relation.ReflTransGen (LockStep exPreds) (lockInit exBatches) exS3 :=
  Relation.ReflTransGen.head exStep1
    (Relation.ReflTransGen.head exStep2 (Relation.ReflTransGen.single exStep3))

/-- The state the dispatch example reaches: four batches in flight. -/
def poolFinal : PoolState := { toRead := 1, queued := 4, running := 0, done := 0 }

theorem foldl_append_eq {β : Type} (g : β → List Char) (l : List β) (acc : List Char) :
    l.foldl (fun a x => a ++ g x) acc = acc ++ (l.map g).flatten := by
  induction l generalizing acc with
  | nil => simp
  | cons x xs ih => simp [ih]

/-! ## Claims -/

/-- C1: a row survives the ordered filter chain iff it passes all
predicates in declared order; survivors keep their relative input order;
per-row short-circuit evaluation produces exactly the same surviving
rows, in the same order, as full evaluation of every predicate. -/
theorem filter_chain_stability {α : Type} (preds : List (α → Bool)) (batch : List α) :
    applyChain preds batch = batch.filter (passesSC preds)
    ∧ batch.filter (passesSC preds) = batch.filter (passesFull preds)
    ∧ (applyChain preds batch).Sublist batch
    ∧ (∀ r, r ∈ applyChain preds batch ↔ r ∈ batch ∧ passesSC preds r = true) := by
  refine ⟨applyChain_eq_filter_passesSC preds batch, ?_,
    applyChain_sublist preds batch, ?_⟩
  · apply List.filter_congr
    intro r _
    rw [passesFull_eq_passesSC]
  · intro r
    rw [applyChain_eq_filter_passesSC, List.mem_filter]

/-- C2: for a non-empty input of `R` data rows and batch bound `B ≥ 1`,
the reader emits `⌈R/B⌉` batches; all but the last have exactly `B`
rows; every batch (the last included) has between 1 and `B` rows, so no
empty batch is emitted when `B` divides `R`; concatenating the batches
reconstructs the input. -/
theorem batch_sizing {α : Type} (B : Nat) (l : List α) (hl : l ≠ []) (hB : 1 ≤ B) :
    (chunksOf B l).length = (l.length + B - 1) / B
    ∧ (∀ c ∈ (chunksOf B l).dropLast, c.length = B)
    ∧ (∀ c ∈ chunksOf B l, 1 ≤ c.length ∧ c.length ≤ B)
    ∧ (chunksOf B l).flatten = l := by
  have hB' : B ≠ 0 := by omega
  exact ⟨chunksOf_length B l hl hB', chunksOf_dropLast_length B l hB',
    chunksOf_mem_length B l hB', chunksOf_flatten B l hB'⟩

theorem batch_sizing_witness :
    (([0, 1, 2, 3] : List Nat) ≠ [] ∧ 1 ≤ 2)
    ∧ ((chunksOf 2 ([0, 1, 2, 3] : List Nat)).length = (4 + 2 - 1) / 2
      ∧ (∀ c ∈ (chunksOf 2 ([0, 1, 2, 3] : List Nat)).dropLast, c.length = 2)
      ∧ (∀ c ∈ chunksOf 2 ([0, 1, 2, 3] : List Nat), 1 ≤ c.length ∧ c.length ≤ 2)
      ∧ (chunksOf 2 ([0, 1, 2, 3] : List Nat)).flatten = [0, 1, 2, 3]) :=
  ⟨⟨by decide, by decide⟩, batch_sizing 2 [0, 1, 2, 3] (by decide) (by decide)⟩

/-- C3: with the skip-with-count policy, a row whose field fails
coercion does not abort the run: the whole input is still read, the
failure is counted in the PipelineResult, the failing row is skipped,
and every other row is still coerced, filtered and written. -/
theorem parse_error_skip (header : List String) (schema : List (String × ColType))
    (preds : List (Row → Bool)) (B : Nat) (raws : List RawRow)
    (hB : 1 ≤ B) (hbad : ∃ raw ∈ raws, coerceRow header schema raw = none) :
    (runSeqCounted header schema preds B raws).1.rowsRead = raws.length
    ∧ 1 ≤ (runSeqCounted header schema preds B raws).1.parseErrors
    ∧ (runSeqCounted header schema preds B raws).1.parseErrors
        = (raws.filter (fun raw => (coerceRow header schema raw).isNone)).length
    ∧ (runSeqCounted header schema preds B raws).2
        = applyChain preds (raws.filterMap (coerceRow header schema)) := by
  have hB' : B ≠ 0 := by omega
  rw [runSeqCounted_spec header schema preds B raws hB']
  refine ⟨rfl, ?_, rfl, rfl⟩
  show 1 ≤ (raws.filter (fun raw => (coerceRow header schema raw).isNone)).length
  obtain ⟨raw, hmem, hnone⟩ := hbad
  have hmem2 : raw ∈ raws.filter (fun raw => (coerceRow header schema raw).isNone) := by
    simp [List.mem_filter, hmem, hnone]
  exact List.length_pos.mpr (List.ne_nil_of_mem hmem2)

theorem parse_error_skip_witness :
    (1 ≤ 2
      ∧ ∃ raw ∈ ([["1"], ["x"], ["2"]] : List RawRow),
          coerceRow ["a"] [("a", ColType.intT)] raw = none)
    ∧ ((runSeqCounted ["a"] [("a", ColType.intT)] [] 2
          [["1"], ["x"], ["2"]]).1.rowsRead = 3
      ∧ 1 ≤ (runSeqCounted ["a"] [("a", ColType.intT)] [] 2
          [["1"], ["x"], ["2"]]).1.parseErrors
      ∧ (runSeqCounted ["a"] [("a", ColType.intT)] [] 2
          [["1"], ["x"], ["2"]]).1.parseErrors
          = (([["1"], ["x"], ["2"]] : List RawRow).filter
              (fun raw => (coerceRow ["a"] [("a", ColType.intT)] raw).isNone)).length
      ∧ (runSeqCounted ["a"] [("a", ColType.intT)] [] 2
          [["1"], ["x"], ["2"]]).2
          = applyChain [] (([["1"], ["x"], ["2"]] : List RawRow).filterMap
              (coerceRow ["a"] [("a", ColType.intT)]))) :=
  ⟨⟨by decide, by decide⟩,
    parse_error_skip ["a"] [("a", ColType.intT)] [] 2 [["1"], ["x"], ["2"]]
      (by decide) (by decide)⟩

/-- C4: when the `m`-th append to the sink fails (all earlier appends
succeeded), the run halts at once: exactly batches `0..m` were
attempted, each once (no retry), the destination holds only the batches
before the failure, and the error is surfaced with the partial
PipelineResult. -/
theorem write_error_fatal {α : Type} (preds : List (α → Bool)) (wf : Nat → Bool)
    (B : Nat) (rows dest : List α) (m : Nat)
    (hm : m < (chunksOf B rows).length) (hfail : wf m = false)
    (hok : ∀ j, j < m → wf j = true) :
    runSeqFallible preds wf (chunksOf B rows) 0 emptyResult dest
      = (List.range (m + 1),
         dest ++ (((chunksOf B rows).take m).map (applyChain preds)).flatten,
         Except.error (m,
           { rowsRead := (((chunksOf B rows).take (m + 1)).flatten).length,
             parseErrors := 0,
             rowsWritten :=
               ((((chunksOf B rows).take m).map (applyChain preds)).flatten).length,
             batchesWritten := m })) := by
  have h := runSeqFallible_fail preds wf (chunksOf B rows) 0 m emptyResult dest hm
    (by simpa using hfail) (fun j hj => by simpa using hok j hj)
  rw [h, ← List.range_eq_range']
  simp [emptyResult]

theorem chunksOf_example : chunksOf 1 ([1, 2, 3] : List Nat) = [[1], [2], [3]] := by
  rw [chunksOf_cons 1 [1, 2, 3] (by simp) (by simp)]
  rw [chunksOf_cons 1 _ (by simp) (by simp)]
  rw [chunksOf_cons 1 _ (by simp) (by simp)]
  simp [chunksOf_nil]

theorem write_error_fatal_witness :
    (1 < (chunksOf 1 ([1, 2, 3] : List Nat)).length
      ∧ (fun k => decide (k = 0)) 1 = false)
    ∧ runSeqFallible [fun x => decide (0 < x)] (fun k => decide (k = 0))
        (chunksOf 1 ([1, 2, 3] : List Nat)) 0 emptyResult []
      = (List.range 2,
         [] ++ (((chunksOf 1 ([1, 2, 3] : List Nat)).take 1).map
           (applyChain [fun x => decide (0 < x)])).flatten,
         Except.error (1,
           { rowsRead := (((chunksOf 1 ([1, 2, 3] : List Nat)).take 2).flatten).length,
             parseErrors := 0,
             rowsWritten :=
               ((((chunksOf 1 ([1, 2, 3] : List Nat)).take 1).map
                 (applyChain [fun x => decide (0 < x)])).flatten).length,
             batchesWritten := 1 })) :=
  ⟨⟨by rw [chunksOf_example]; decide, by decide⟩,
    write_error_fatal [fun x => decide (0 < x)] (fun k => decide (k = 0)) 1 [1, 2, 3] [] 1
      (by rw [chunksOf_example]; decide) (by decide)
      (fun j hj => by
        have hj0 : j = 0 := by omega
        subst hj0
        decide)⟩

/-- C5 counterexample: with the notebook's pool of `W = 3` workers (the
only concurrency bound the code configures), the dispatch loop reaches a
state with 4 batches in flight — `apply_async` never blocks the reader,
so no in-flight bound `Q` is enforced. -/
theorem backpressure_exceeded :
    Relation.ReflTransGen (PoolStep 3)
      { toRead := 5, queued := 0, running := 0, done := 0 } poolFinal
    ∧ 3 < inFlight poolFinal :=
  ⟨poolChainExample, by decide⟩

/-- C5 amended: the dispatch loop applies no backpressure; the only
bound on in-flight batches is the total number of batches read, by
conservation of batches. -/
theorem inflight_bounded_by_total (W n : Nat) (s : PoolState)
    (h : Relation.ReflTransGen (PoolStep W)
      { toRead := n, queued := 0, running := 0, done := 0 } s) :
    inFlight s ≤ n ∧ s.toRead + inFlight s + s.done = n := by
  induction h with
  | refl => simp [inFlight]
  | tail _ step ih =>
    obtain ⟨ih1, ih2⟩ := ih
    cases step with
    | dispatch h => simp only [inFlight] at ih1 ih2 ⊢; omega
    | start h hW => simp only [inFlight] at ih1 ih2 ⊢; omega
    | finish h => simp only [inFlight] at ih1 ih2 ⊢; omega

theorem inflight_bounded_by_total_witness :
    inFlight poolFinal ≤ 5
    ∧ poolFinal.toRead + inFlight poolFinal + poolFinal.done = 5 :=
  inflight_bounded_by_total 3 5 poolFinal poolChainExample

/-- C6: in any reachable state of the concurrent variant, at most one
worker is mid-write (writes are mutually exclusive); once all workers
are done, the sink is the concatenation of whole filtered batches, each
contiguous and in batch-internal order — no two batch writes
interleave. -/
theorem sink_mutual_exclusion {α : Type} {n : Nat} (preds : List (α → Bool))
    (batches : Fin n → List α) (s : LockState α n)
    (hreach : Relation.ReflTransGen (LockStep preds) (lockInit batches) s) :
    (∀ i j, isWriting (s.workers i) = true → isWriting (s.workers j) = true → i = j)
    ∧ ((∀ i, isFinished (s.workers i) = true) →
        ∃ ord : List (Fin n), ord.Perm (List.finRange n)
          ∧ s.sink = (ord.map (fun i => applyChain preds (batches i))).flatten) := by
  have inv := lockInv_reachable preds batches s hreach
  constructor
  · intro i j hi hj
    have h1 := inv.holderOfWriting i hi
    have h2 := inv.holderOfWriting j hj
    rw [h1] at h2
    exact Option.some_injective _ h2
  · intro hdone
    exact lockFinal_shape preds batches s hreach hdone

theorem sink_mutual_exclusion_witness :
    (∀ i j, isWriting (exS3.workers i) = true → isWriting (exS3.workers j) = true → i = j)
    ∧ ((∀ i, isFinished (exS3.workers i) = true) →
        ∃ ord : List (Fin 1), ord.Perm (List.finRange 1)
          ∧ exS3.sink = (ord.map (fun i => applyChain exPreds (exBatches i))).flatten) :=
  sink_mutual_exclusion exPreds exBatches exS3 exReach

/-- C7: whatever the worker count and scheduling, a completed concurrent
run commits exactly the rows the sequential single pass commits — the
sink is a permutation (same multiset, possibly reordered across batches)
of the sequential filter output. -/
theorem conc_rowset_eq_sequential {α : Type} {n : Nat} (preds : List (α → Bool))
    (batches : Fin n → List α) (s : LockState α n)
    (hreach : Relation.ReflTransGen (LockStep preds) (lockInit batches) s)
    (hdone : ∀ i, isFinished (s.workers i) = true) :
    s.sink.Perm (applyChain preds (((List.finRange n).map batches).flatten)) := by
  obtain ⟨ord, hperm, hsink⟩ := lockFinal_shape preds batches s hreach hdone
  rw [hsink, applyChain_flatten, List.map_map]
  exact (hperm.map (fun i => applyChain preds (batches i))).flatten

theorem conc_rowset_eq_sequential_witness :
    exS3.sink.Perm (applyChain exPreds (((List.finRange 1).map exBatches).flatten)) :=
  conc_rowset_eq_sequential exPreds exBatches exS3 exReach (by decide)

/-- C8: a sequential run against a fresh empty target produces exactly
the serialization of the filtered input — so two such runs are
byte-identical; a concurrent run's bytes are the serialization of its
completion-ordered rows, and two concurrent runs (any two completion
orders) commit the same multiset of rows, though possibly in different
order. -/
theorem idempotence_boundary {α : Type} (f : α → List Char) (preds : List (α → Bool))
    (B : Nat) (rows : List α) (ord₁ ord₂ : List Nat) (hB : 1 ≤ B)
    (h₁ : ord₁.Perm (List.range (chunksOf B rows).length))
    (h₂ : ord₂.Perm (List.range (chunksOf B rows).length)) :
    processChunked f preds B [] rows = serializeBatch f (applyChain preds rows)
    ∧ processConcurrent f preds B [] rows ord₁
        = serializeBatch f (concWrittenRows preds B rows ord₁)
    ∧ (concWrittenRows preds B rows ord₁).Perm (concWrittenRows preds B rows ord₂) := by
  refine ⟨?_, ?_, ?_⟩
  · rw [processChunked_eq_singlePass f preds B [] rows (by omega)]
    simp [processSinglePass]
  · rw [processConcurrent, foldl_append_eq, concWrittenRows, serializeBatch_flatten,
      List.map_map]
    simp [Function.comp_def]
  · exact ((h₁.trans h₂.symm).map _).flatten

theorem chunksOf_example2 : chunksOf 1 ([1, 2] : List Nat) = [[1], [2]] := by
  rw [chunksOf_cons 1 [1, 2] (by simp) (by simp)]
  rw [chunksOf_cons 1 _ (by simp) (by simp)]
  simp [chunksOf_nil]

theorem idempotence_boundary_witness :
    (1 ≤ 1
      ∧ ([1, 0] : List Nat).Perm (List.range (chunksOf 1 ([1, 2] : List Nat)).length)
      ∧ ([0, 1] : List Nat).Perm (List.range (chunksOf 1 ([1, 2] : List Nat)).length))
    ∧ (processChunked (fun n => [Char.ofNat (48 + n)]) [fun x => decide (0 < x)] 1 [] [1, 2]
        = serializeBatch (fun n => [Char.ofNat (48 + n)])
            (applyChain [fun x => decide (0 < x)] [1, 2])
      ∧ processConcurrent (fun n => [Char.ofNat (48 + n)]) [fun x => decide (0 < x)] 1 []
          [1, 2] [1, 0]
        = serializeBatch (fun n => [Char.ofNat (48 + n)])
            (concWrittenRows [fun x => decide (0 < x)] 1 [1, 2] [1, 0])
      ∧ (concWrittenRows [fun x => decide (0 < x)] 1 [1, 2] [1, 0]).Perm
          (concWrittenRows [fun x => decide (0 < x)] 1 [1, 2] [0, 1])) :=
  ⟨⟨by decide, by rw [chunksOf_example2]; decide, by rw [chunksOf_example2]; decide⟩,
    idempotence_boundary (fun n => [Char.ofNat (48 + n)]) [fun x => decide (0 < x)] 1
      [1, 2] [1, 0] [0, 1] (by decide)
      (by rw [chunksOf_example2]; decide) (by rw [chunksOf_example2]; decide)⟩

/-- C9: for every input, batch bound `B ≥ 1` and destination, the
chunked sequential run (filter and append chunk by chunk) writes a
byte-identical file to the single-pass run (filter everything, append
once), because each predicate looks at one row at a time. -/
theorem chunked_run_eq_single_pass {α : Type} (f : α → List Char)
    (preds : List (α → Bool)) (B : Nat) (dest : List Char) (rows : List α)
    (hB : 1 ≤ B) :
    processChunked f preds B dest rows = processSinglePass f preds dest rows :=
  processChunked_eq_singlePass f preds B dest rows (by omega)

theorem chunked_run_eq_single_pass_witness :
    1 ≤ 2
    ∧ processChunked (fun n => [Char.ofNat (48 + n)]) [fun x => decide (0 < x)] 2 []
        [1, 2, 3]
      = processSinglePass (fun n => [Char.ofNat (48 + n)]) [fun x => decide (0 < x)] []
        [1, 2, 3] :=
  ⟨by decide,
    chunked_run_eq_single_pass (fun n => [Char.ofNat (48 + n)]) [fun x => decide (0 < x)]
      2 [] [1, 2, 3] (by decide)⟩

/-- C10: every variant appends to the destination: existing content is
preserved unchanged as a prefix of the final file, and running a variant
twice over the same input leaves two copies of the surviving rows after
the original content. -/
theorem append_only_preserved {α : Type} (f : α → List Char) (preds : List (α → Bool))
    (B : Nat) (dest : List Char) (rows : List α) (order : List Nat) :
    processSinglePass f preds dest rows = dest ++ processSinglePass f preds [] rows
    ∧ processChunked f preds B dest rows = dest ++ processChunked f preds B [] rows
    ∧ processConcurrent f preds B dest rows order
        = dest ++ processConcurrent f preds B [] rows order
    ∧ processChunked f preds B (processChunked f preds B dest rows) rows
        = dest ++ processChunked f preds B [] rows ++ processChunked f preds B [] rows := by
  refine ⟨by simp [processSinglePass], ?_, ?_, ?_⟩
  · rw [processChunked, processChunked, foldl_append_eq, foldl_append_eq]
    simp
  · rw [processConcurrent, processConcurrent, foldl_append_eq, foldl_append_eq]
    simp
  · simp only [processChunked, foldl_append_eq]
    simp [List.append_assoc]
